import Mathlib

/-!
goDeck: a shallow embedding of `card.go`

The Go package `deck` builds a slice of cards and transforms it with a
pipeline of functions `[]Card -> []Card`.  Slices are embedded as lists,
`uint8` attributes as natural numbers (the one narrowing conversion,
`Rank(i)` in `Jokers`, is written with an explicit `% 256`), and the Go
`int` arguments of `Jokers` and `Deck` as integers.

Two calls leave the package for the standard library.  `r.Perm` of
`math/rand` is a parameter of `Shuffle`.  Of `sort.Slice` the insertion sort
it runs on at most twelve elements is embedded; the quicksort it runs on
longer slices is a parameter of `DefaultSort`, used through the documented
contract of `sort.Slice` alone.
-/

namespace GoDeck

/-! ## Data model -/

/-- Go `type Suit uint8`. -/
abbrev Suit := Nat

/-- Go `type Rank uint8`. -/
abbrev Rank := Nat

/-- Suit constant `Spade` (iota 0). -/
def Spade : Suit := 0
/-- Suit constant `Diamond`. -/
def Diamond : Suit := 1
/-- Suit constant `Club`. -/
def Club : Suit := 2
/-- Suit constant `Heart`. -/
def Heart : Suit := 3
/-- Suit constant `Joker`, the special case. -/
def Joker : Suit := 4

/-- Go `var suits = [...]Suit{Spade, Diamond, Club, Heart}`. -/
def suits : List Suit := [Spade, Diamond, Club, Heart]

/-- Rank constant `Ace` (iota 1; iota 0 is skipped). -/
def Ace : Rank := 1
/-- Rank constant `Two`. -/
def Two : Rank := 2
/-- Rank constant `Three`. -/
def Three : Rank := 3
/-- Rank constant `Four`. -/
def Four : Rank := 4
/-- Rank constant `Five`. -/
def Five : Rank := 5
/-- Rank constant `Six`. -/
def Six : Rank := 6
/-- Rank constant `Seven`. -/
def Seven : Rank := 7
/-- Rank constant `Eight`. -/
def Eight : Rank := 8
/-- Rank constant `Nine`. -/
def Nine : Rank := 9
/-- Rank constant `Ten`. -/
def Ten : Rank := 10
/-- Rank constant `Jack`. -/
def Jack : Rank := 11
/-- Rank constant `Queen`. -/
def Queen : Rank := 12
/-- Rank constant `King`. -/
def King : Rank := 13

/-- Go `minRank = Ace`. -/
def minRank : Rank := Ace
/-- Go `maxRank = King`. -/
def maxRank : Rank := King

/-- Go `type Card struct { Suit; Rank }`. -/
structure Card where
  Suit : Suit
  Rank : Rank
  deriving DecidableEq, Repr

/-- The zero value of `Card`, as produced by `make([]Card, n)`. -/
def zeroCard : Card := ⟨0, 0⟩

/-! ## `New` -/

/-- Inner loop of `New`: `for r := minRank; r <= maxRank; r++ { cards = append(cards, Card{s, r}) }`. -/
def appendRanks (s : Suit) (cards : List Card) : List Card :=
  (List.range' minRank (maxRank + 1 - minRank)).foldl (fun cs r => cs ++ [⟨s, r⟩]) cards

/-- The first loop nest of `New`: the cards built before any option runs. -/
def baseCards : List Card :=
  suits.foldl (fun cs s => appendRanks s cs) []

/-- Go `New(opts ...func([]Card) []Card) []Card`. -/
def New (opts : List (List Card → List Card)) : List Card :=
  opts.foldl (fun cards opt => opt cards) baseCards

/-! ## Transformations -/

/-- Go `Jokers(n int)`: `for i := 0; i < n; i++ { cards = append(cards, Card{Rank: Rank(i), Suit: Joker}) }`.
The conversion `Rank(i)` of the `int` counter to `uint8` keeps the low eight bits. -/
def Jokers (n : Int) (cards : List Card) : List Card :=
  (List.range n.toNat).foldl (fun cs i => cs ++ [⟨Joker, i % 256⟩]) cards

/-- Go `Filter(f)`: `ret := make([]Card, len(cards))` is a slice of `len(cards)`
zero-valued cards, and every card with `!f(c)` is appended to it. -/
def Filter (f : Card → Bool) (cards : List Card) : List Card :=
  cards.foldl (fun ret c => if !f c then ret ++ [c] else ret)
    (List.replicate cards.length zeroCard)

/-- Go `Deck(n int)`: `var ret []Card; for i := 0; i < n; i++ { ret = append(ret, cards...) }`. -/
def Deck (n : Int) (cards : List Card) : List Card :=
  (List.range n.toNat).foldl (fun ret _ => ret ++ cards) []

/-- The predicate of `TestFilter`: `card.Rank == Two || card.Rank == Three`. -/
def twoOrThree (card : Card) : Bool := card.Rank == Two || card.Rank == Three

/-- A predicate on the suit only: `card.Suit == Spade`. -/
def isSpade (card : Card) : Bool := card.Suit == Spade

/-! ## Sorting -/

/-- Go `absRank(c Card) int`: `int(c.Suit)*int(maxRank) + int(c.Rank)`. -/
def absRank (c : Card) : Int := (c.Suit : Int) * (maxRank : Int) + (c.Rank : Int)

/-- Go `Less(cards)`: the closure `func(i, j int) bool` comparing the absolute
ranks of the cards currently at positions `i` and `j` of the slice. -/
def Less (cards : List Card) (i j : Nat) : Bool :=
  decide (absRank (cards.getD i zeroCard) < absRank (cards.getD j zeroCard))

/-- The swapper `sort.Slice` obtains for the slice: exchange positions `i` and `j`. -/
def swap (cards : List Card) (i j : Nat) : List Card :=
  (cards.set i (cards.getD j zeroCard)).set j (cards.getD i zeroCard)

/-- Inner loop of the insertion sort in Go's `sort` package:
`for j := i; j > a && less(j, j-1); j-- { swap(j, j-1) }` with `a = 0`.
The comparator reads the slice in its current state. -/
def insertDown (less : List Card → Nat → Nat → Bool) : Nat → List Card → List Card
  | 0, cards => cards
  | j + 1, cards =>
    if less cards (j + 1) j then insertDown less j (swap cards (j + 1) j) else cards

/-- Go `insertionSort_func(data, 0, n)` of the `sort` package:
`for i := 1; i < n; i++ { insertDown i }`. -/
def insertionSort (less : List Card → Nat → Nat → Bool) (cards : List Card) : List Card :=
  (List.range' 1 (cards.length - 1)).foldl (fun cs i => insertDown less i cs) cards

/-- Go `const maxInsertion = 12` in `pdqsort_func`: up to this length the library
sorts by insertion alone. -/
def maxInsertion : Nat := 12

/-- A comparator closure in the style `sort.Slice` expects: it reports whether the
card now at position `i` goes before the card now at position `j`, by an order
`lt` on cards.  `Less` is of this form. -/
def lessBy (lt : Card → Card → Bool) (cards : List Card) (i j : Nat) : Bool :=
  lt (cards.getD i zeroCard) (cards.getD j zeroCard)

/-- The order on cards behind `Less`: smaller absolute rank first. -/
def ltAbs (a b : Card) : Bool := decide (absRank a < absRank b)

/-- Strict weak ordering, what the `sort` package requires of a comparator:
irreflexive, transitive, and with transitive "not less". -/
def StrictWeak (lt : Card → Card → Bool) : Prop :=
  (∀ a, lt a a = false) ∧ (∀ a b c, lt a b = true → lt b c = true → lt a c = true) ∧
    (∀ a b c, lt a b = false → lt b c = false → lt a c = false)

/-- What `sort.Slice` promises of its result `out` for the input `cards`: the same
cards, none placed after a card it is less than.  Nothing is promised about the
relative order of cards that compare equal. -/
def SortedPerm (lt : Card → Card → Bool) (cards out : List Card) : Prop :=
  out.Perm cards ∧ out.Pairwise (fun a b => lt b a = false)

/-- The documented contract of `sort.Slice` for a slice longer than `maxInsertion`,
where the library runs its pattern-defeating quicksort: with a comparator that is a
strict weak ordering, the outcome is sorted and holds the same cards. -/
def PdqContract (pdq : (List Card → Nat → Nat → Bool) → List Card → List Card) : Prop :=
  ∀ lt, StrictWeak lt → ∀ cards : List Card, maxInsertion < cards.length →
    SortedPerm lt cards (pdq (lessBy lt) cards)

/-- Go `sort.Slice(cards, less)`, standard library, sorting the slice in place:
`pdqsort_func(data, 0, n, limit)` begins with
`if length <= maxInsertion { insertionSort_func(data, a, b); return }`, which is
embedded; the rest of the library's quicksort, run on longer slices, is the
parameter `pdq`, of which only `PdqContract` is used. -/
def sortSlice (pdq : (List Card → Nat → Nat → Bool) → List Card → List Card)
    (less : List Card → Nat → Nat → Bool) (cards : List Card) : List Card :=
  if cards.length ≤ maxInsertion then insertionSort less cards else pdq less cards

/-- Go `DefaultSort(cards)`: `sort.Slice(cards, Less(cards)); return cards`. -/
def DefaultSort (pdq : (List Card → Nat → Nat → Bool) → List Card → List Card)
    (cards : List Card) : List Card :=
  sortSlice pdq Less cards

/-- Go `Sort(less)`: the transformation sorting with the comparator `less(cards)`
(`Sort` is reserved in Lean, hence the longer name). -/
def SortBy (pdq : (List Card → Nat → Nat → Bool) → List Card → List Card)
    (less : List Card → Nat → Nat → Bool) : List Card → List Card :=
  fun cards => sortSlice pdq less cards

/-- Insertion of `x` into a sorted prefix held in reverse (nearest element first):
the element-level view of `insertDown (lessBy lt)`. -/
def insRev (lt : Card → Card → Bool) (x : Card) : List Card → List Card
  | [] => [x]
  | y :: ys => if lt x y then y :: insRev lt x ys else x :: y :: ys

/-- The thirteen Spades from King down to Ace: a deck longer than `maxInsertion`
whose keys are all different. -/
def spadesDown : List Card :=
  [⟨Spade, King⟩, ⟨Spade, Queen⟩, ⟨Spade, Jack⟩, ⟨Spade, Ten⟩, ⟨Spade, Nine⟩,
    ⟨Spade, Eight⟩, ⟨Spade, Seven⟩, ⟨Spade, Six⟩, ⟨Spade, Five⟩, ⟨Spade, Four⟩,
    ⟨Spade, Three⟩, ⟨Spade, Two⟩, ⟨Spade, Ace⟩]

/-! ## Shuffle -/

/-- Go `Shuffle(cards)`: `ret := make([]Card, len(cards)); perm := r.Perm(len(cards));
for i, j := range perm { ret[i] = cards[j] }`.  The method `r.Perm` of the freshly
seeded random source is the parameter `randPerm`. -/
def Shuffle (randPerm : Nat → List Nat) (cards : List Card) : List Card :=
  (randPerm cards.length).enum.foldl (fun ret ij => ret.set ij.1 (cards.getD ij.2 zeroCard))
    (List.replicate cards.length zeroCard)

/-! ## Text form -/

/-- Modelled from the spec: the suit names of the name-lookup table, "Spade" to
"Heart" plus the literal "Joker", in declaration order (the `stringer` output
`suit_string.go` named by the `go:generate` line is not among the sources). -/
def suitNames : List String := ["Spade", "Diamond", "Club", "Heart", "Joker"]

/-- Modelled from the spec: the rank names of the name-lookup table, "Ace" to "King"
(the `stringer` output `rank_string.go` is not among the sources). -/
def rankNames : List String :=
  ["Ace", "Two", "Three", "Four", "Five", "Six", "Seven", "Eight", "Nine", "Ten",
    "Jack", "Queen", "King"]

/-- Modelled from the spec: `Suit.String()`, the lookup of a suit in `suitNames`; a
value outside the table is rendered as the `stringer` tool does, `Suit(n)`. -/
def suitString (s : Suit) : String :=
  match suitNames[s]? with
  | some name => name
  | none => "Suit(" ++ toString s ++ ")"

/-- Modelled from the spec: `Rank.String()`, the lookup of a rank in `rankNames`
(Ace is 1, so the index is one less); a value outside the table is rendered as the
`stringer` tool does, `Rank(n)`. -/
def rankString (r : Rank) : String :=
  if r = 0 then "Rank(0)"
  else match rankNames[r - 1]? with
    | some name => name
    | none => "Rank(" ++ toString r ++ ")"

/-- Go `Card.String()`: the suit's text alone for a Joker, otherwise
`fmt.Sprintf("%s of %ss", c.Rank.String(), c.Suit.String())`. -/
def Card.String (c : Card) : String :=
  if c.Suit = Joker then suitString c.Suit
  else rankString c.Rank ++ " of " ++ suitString c.Suit ++ "s"

/-! ## Theorems -/

/-- C1: `New()` with no options returns exactly 52 cards, none with suit Joker,
and every pair of a suit in Spade, Diamond, Club, Heart and a rank in Ace..King
occurs in it exactly once. -/
theorem new_standard_deck :
    (New []).length = 52 ∧ (∀ c ∈ New [], c.Suit ≠ Joker) ∧
      ∀ s ∈ suits, ∀ r : Rank, Ace ≤ r → r ≤ King → (New []).count ⟨s, r⟩ = 1 := by
  refine ⟨by decide, by decide, ?_⟩
  intro s hs r h1 h2
  simp only [Ace, King] at h1 h2
  simp only [suits, Spade, Diamond, Club, Heart, List.mem_cons, List.mem_singleton,
    List.not_mem_nil, or_false] at hs
  interval_cases r <;> rcases hs with rfl | rfl | rfl | rfl <;> decide

/-- C1 at a concrete card: the Queen of Clubs occurs exactly once in `New()`. -/
theorem new_standard_deck_witness :
    Club ∈ suits ∧ Ace ≤ Queen ∧ Queen ≤ King ∧ (New []).count ⟨Club, Queen⟩ = 1 :=
  ⟨by decide, by decide, by decide,
    new_standard_deck.2.2 Club (by decide) Queen (by decide) (by decide)⟩

/-- C2: for every list of options, `New` is the left-to-right fold of the options
over the canonical sequence `New()`, each option receiving the previous output. -/
theorem new_is_fold (opts : List (List Card → List Card)) :
    New opts = opts.foldl (fun cards opt => opt cards) (New []) := by
  rfl


/-! ### Loops as list expressions -/

theorem foldl_append_singleton {α β : Type} (g : α → β) (l : List α) (init : List β) :
    l.foldl (fun cs i => cs ++ [g i]) init = init ++ l.map g := by
  induction l generalizing init with
  | nil => simp
  | cons a l ih => simp [ih]

theorem foldl_keep {α : Type} (p : α → Bool) (l : List α) (init : List α) :
    l.foldl (fun ret c => if p c then ret ++ [c] else ret) init = init ++ l.filter p := by
  induction l generalizing init with
  | nil => simp
  | cons a l ih =>
    by_cases h : p a = true
    · simp [ih, h]
    · simp [ih, h]

theorem foldl_append_const {α β : Type} (cards : List β) (l : List α) (init : List β) :
    l.foldl (fun ret _ => ret ++ cards) init
      = init ++ (List.replicate l.length cards).flatten := by
  induction l generalizing init with
  | nil => simp
  | cons a l ih => simp [ih, List.replicate_succ]

theorem jokers_eq (n : Int) (cards : List Card) :
    Jokers n cards = cards ++ (List.range n.toNat).map (fun i => (⟨Joker, i % 256⟩ : Card)) := by
  unfold Jokers
  exact foldl_append_singleton (fun i => (⟨Joker, i % 256⟩ : Card)) _ _

theorem filter_eq (f : Card → Bool) (cards : List Card) :
    Filter f cards
      = List.replicate cards.length zeroCard ++ cards.filter (fun c => !f c) := by
  unfold Filter
  exact foldl_keep (fun c => !f c) _ _

theorem deck_eq (n : Int) (cards : List Card) :
    Deck n cards = (List.replicate n.toNat cards).flatten := by
  unfold Deck
  rw [foldl_append_const]
  simp

/-! ### Filter -/

/-- C3, evaluated on the standard deck with the predicate of `TestFilter`: the
result is not the subsequence of the cards the predicate rejects; it starts with
a zero-valued card, which is not a card of the deck, and has 96 entries where
the subsequence has 44. -/
theorem filter_not_subsequence :
    Filter twoOrThree (New []) ≠ (New []).filter (fun c => !twoOrThree c) ∧
      (Filter twoOrThree (New [])).head? = some zeroCard ∧ zeroCard ∉ New [] ∧
      (Filter twoOrThree (New [])).length = 96 ∧
      ((New []).filter (fun c => !twoOrThree c)).length = 44 := by
  decide

/-- C4, evaluated on the standard deck with the predicate "suit is Spade": the
result still holds cards satisfying the predicate, namely the 52 zero-valued
cards at its front, although every Spade of the deck itself was dropped. -/
theorem filter_keeps_satisfying_card :
    (∃ c ∈ Filter isSpade (New []), isSpade c = true) ∧
      ((Filter isSpade (New [])).filter isSpade) = List.replicate 52 zeroCard := by
  decide

set_option maxRecDepth 8000 in
/-- C5, evaluated: `New(Filter(f))` with `f` the Two-or-Three predicate has 96
cards, not 44 (52 zero-valued cards come first); none has rank Two or Three. -/
theorem new_filter_twoOrThree :
    (New [Filter twoOrThree]).length = 96 ∧
      (New [Filter twoOrThree]).take 52 = List.replicate 52 zeroCard ∧
      ((New [Filter twoOrThree]).drop 52).length = 44 ∧
      ∀ c ∈ New [Filter twoOrThree], c.Rank ≠ Two ∧ c.Rank ≠ Three := by
  decide

/-! ### Deck and Jokers -/

set_option maxRecDepth 8000 in
/-- C6: for every `n >= 0`, `Deck(n)(cards)` is `n` copies of `cards` laid out
consecutively, so its length is `n * len(cards)`; `New(Deck(3))` has 156 cards
and equals `New() ++ New() ++ New()`. -/
theorem deck_copies (n : Int) (hn : 0 ≤ n) (cards : List Card) :
    Deck n cards = (List.replicate n.toNat cards).flatten ∧
      ((Deck n cards).length : Int) = n * cards.length ∧
      (New [Deck 3]).length = 156 ∧ New [Deck 3] = New [] ++ New [] ++ New [] := by
  refine ⟨deck_eq n cards, ?_, by decide, by decide⟩
  rw [deck_eq]
  simp [List.length_flatten, Int.toNat_of_nonneg hn]

/-- C6 at `n = 2` on a two-card deck. -/
theorem deck_copies_witness :
    Deck 2 [⟨Heart, Ace⟩, ⟨Club, Ten⟩]
        = (List.replicate (2 : Int).toNat [⟨Heart, Ace⟩, ⟨Club, Ten⟩]).flatten ∧
      ((Deck 2 [⟨Heart, Ace⟩, ⟨Club, Ten⟩]).length : Int)
        = 2 * ([⟨Heart, Ace⟩, ⟨Club, Ten⟩] : List Card).length :=
  ⟨(deck_copies 2 (by decide) [⟨Heart, Ace⟩, ⟨Club, Ten⟩]).1,
    (deck_copies 2 (by decide) [⟨Heart, Ace⟩, ⟨Club, Ten⟩]).2.1⟩

/-- C7: for every `n >= 0`, `Jokers(n)(cards)` has length `len(cards) + n`, starts
with `cards` unchanged, and its last `n` entries all have suit Joker; the number of
Joker-suited cards grows by exactly `n`; `New(Jokers(5))` has 57 cards, 5 of them
Jokers. -/
theorem jokers_appended (n : Int) (hn : 0 ≤ n) (cards : List Card) :
    ((Jokers n cards).length : Int) = cards.length + n ∧
      (Jokers n cards).take cards.length = cards ∧
      (((Jokers n cards).drop cards.length).length : Int) = n ∧
      (∀ c ∈ (Jokers n cards).drop cards.length, c.Suit = Joker) ∧
      (((Jokers n cards).countP (fun c => c.Suit == Joker) : Nat) : Int)
        = cards.countP (fun c => c.Suit == Joker) + n ∧
      (New [Jokers 5]).length = 57 ∧
      (New [Jokers 5]).countP (fun c => c.Suit == Joker) = 5 := by
  refine ⟨?_, ?_, ?_, ?_, ?_, by decide, by decide⟩
  · simp [jokers_eq, Int.toNat_of_nonneg hn]
  · simp [jokers_eq]
  · simp [jokers_eq, Int.toNat_of_nonneg hn]
  · intro c hc
    simp only [jokers_eq, List.drop_left, List.mem_map] at hc
    obtain ⟨i, _, rfl⟩ := hc
    rfl
  · rw [jokers_eq, List.countP_append]
    have h : ((List.range n.toNat).map (fun i => (⟨Joker, i % 256⟩ : Card))).countP
        (fun c => c.Suit == Joker) = n.toNat := by
      rw [List.countP_eq_length.2]
      · simp
      · intro c hc
        simp only [List.mem_map] at hc
        obtain ⟨i, _, rfl⟩ := hc
        rfl
    rw [h]
    push_cast
    rw [Int.toNat_of_nonneg hn]

/-- C7 at `n = 2` on a one-card deck. -/
theorem jokers_appended_witness :
    ((Jokers 2 [⟨Heart, Ace⟩]).length : Int) = ([⟨Heart, Ace⟩] : List Card).length + 2 ∧
      (Jokers 2 [⟨Heart, Ace⟩]).take ([⟨Heart, Ace⟩] : List Card).length = [⟨Heart, Ace⟩] :=
  ⟨(jokers_appended 2 (by decide) [⟨Heart, Ace⟩]).1,
    (jokers_appended 2 (by decide) [⟨Heart, Ace⟩]).2.1⟩

/-- C8 fails at `n = 257` on the empty deck: the Joker appended last carries the
tag 0, not 256, and equals the Joker appended first, so the appended Jokers are
not pairwise distinct. -/
theorem jokers_tags_wrap :
    (Jokers 257 [])[256]? = some ⟨Joker, 0⟩ ∧ (Jokers 257 [])[0]? = some ⟨Joker, 0⟩ ∧
      (Jokers 257 []).drop ([] : List Card).length
        ≠ (List.range 257).map (fun i => (⟨Joker, i⟩ : Card)) ∧
      ¬ ((Jokers 257 []).drop ([] : List Card).length).Nodup := by
  have e : Jokers 257 [] = (List.range 257).map (fun i => (⟨Joker, i % 256⟩ : Card)) := by
    rw [jokers_eq]; rfl
  have h256 : (Jokers 257 [])[256]? = some ⟨Joker, 0⟩ := by
    rw [e]; simp
  have h0 : (Jokers 257 [])[0]? = some ⟨Joker, 0⟩ := by
    rw [e]; simp
  refine ⟨h256, h0, ?_, ?_⟩
  · intro h
    simp only [List.length_nil, List.drop_zero] at h
    rw [h] at h256
    simp at h256
  · intro h
    simp only [List.length_nil, List.drop_zero] at h
    have hl : (Jokers 257 []).length = 257 := by
      rw [e, List.length_map, List.length_range]
    exact List.nodup_iff_getElem?_ne_getElem?.1 h 0 256 (by omega) (by omega) (h0.trans h256.symm)

/-- C8 as amended: for every `n >= 0` the `i`-th Joker appended by `Jokers(n)`
carries the tag `i mod 256`; when `n <= 256` the tags are `0, 1, ..., n-1` in that
order and the appended Jokers are pairwise distinct. -/
theorem jokers_tags (n : Int) (hn : 0 ≤ n) (cards : List Card) :
    (Jokers n cards).drop cards.length
        = (List.range n.toNat).map (fun i => (⟨Joker, i % 256⟩ : Card)) ∧
      (n ≤ 256 →
        (Jokers n cards).drop cards.length
            = (List.range n.toNat).map (fun i => (⟨Joker, i⟩ : Card)) ∧
          ((Jokers n cards).drop cards.length).Nodup) := by
  have e : (Jokers n cards).drop cards.length
      = (List.range n.toNat).map (fun i => (⟨Joker, i % 256⟩ : Card)) := by
    simp [jokers_eq]
  refine ⟨e, fun h => ?_⟩
  have e2 : (List.range n.toNat).map (fun i => (⟨Joker, i % 256⟩ : Card))
      = (List.range n.toNat).map (fun i => (⟨Joker, i⟩ : Card)) := by
    apply List.map_congr_left
    intro i hi
    have hi2 : (i : Nat) < n.toNat := List.mem_range.1 hi
    have h3 : n.toNat ≤ 256 := by omega
    have : i < 256 := lt_of_lt_of_le hi2 h3
    simp [Nat.mod_eq_of_lt this]
  rw [e, e2]
  refine ⟨rfl, ?_⟩
  apply List.Nodup.map _ (List.nodup_range _)
  intro a b hab
  exact (Card.mk.inj hab).2

/-- C8 as amended, at `n = 3` on a one-card deck: tags 0, 1, 2. -/
theorem jokers_tags_witness :
    (Jokers 3 [⟨Heart, Ace⟩]).drop 1 = [⟨Joker, 0⟩, ⟨Joker, 1⟩, ⟨Joker, 2⟩] ∧
      ((Jokers 3 [⟨Heart, Ace⟩]).drop 1).Nodup :=
  ((jokers_tags 3 (by decide) [⟨Heart, Ace⟩]).2 (by decide))


/-! ### The in-place insertion sort, element by element -/

theorem getD_mid (pre : List Card) (x : Card) (rest : List Card) :
    (pre ++ x :: rest).getD pre.length zeroCard = x := by
  induction pre with
  | nil => rfl
  | cons a pre ih => exact ih

theorem swap_adjacent (pre : List Card) (y x : Card) (rest : List Card) :
    swap (pre ++ y :: x :: rest) (pre.length + 1) pre.length = pre ++ x :: y :: rest := by
  have hx : (pre ++ y :: x :: rest).getD (pre.length + 1) zeroCard = x := by
    have := getD_mid (pre ++ [y]) x rest
    simpa using this
  have hy : (pre ++ y :: x :: rest).getD pre.length zeroCard = y := getD_mid pre y (x :: rest)
  unfold swap
  rw [hx, hy]
  simp [List.set_append]

theorem less_adjacent (lt : Card → Card → Bool) (pre : List Card) (y x : Card)
    (rest : List Card) :
    lessBy lt (pre ++ y :: x :: rest) (pre.length + 1) pre.length = lt x y := by
  have hx : (pre ++ y :: x :: rest).getD (pre.length + 1) zeroCard = x := by
    have := getD_mid (pre ++ [y]) x rest
    simpa using this
  have hy : (pre ++ y :: x :: rest).getD pre.length zeroCard = y := getD_mid pre y (x :: rest)
  unfold lessBy
  rw [hx, hy]

theorem insertDown_eq (lt : Card → Card → Bool) (ys : List Card) (x : Card)
    (rest : List Card) :
    insertDown (lessBy lt) ys.length (ys.reverse ++ x :: rest)
      = (insRev lt x ys).reverse ++ rest := by
  induction ys generalizing rest with
  | nil => simp [insertDown, insRev]
  | cons y ys ih =>
    have hl : ys.length = ys.reverse.length := by simp
    have e : (y :: ys).reverse ++ x :: rest = ys.reverse ++ y :: x :: rest := by simp
    rw [e, List.length_cons, insertDown]
    have hless : lessBy lt (ys.reverse ++ y :: x :: rest) (ys.length + 1) ys.length
        = lt x y := by
      rw [hl, less_adjacent]
    rw [hless]
    by_cases h : lt x y = true
    · rw [if_pos h]
      have hswap : swap (ys.reverse ++ y :: x :: rest) (ys.length + 1) ys.length
          = ys.reverse ++ x :: y :: rest := by
        rw [hl, swap_adjacent]
      rw [hswap, ih]
      simp [insRev, h]
    · rw [if_neg h]
      simp [insRev, h]

theorem length_insRev (lt : Card → Card → Bool) (x : Card) (ys : List Card) :
    (insRev lt x ys).length = ys.length + 1 := by
  induction ys with
  | nil => rfl
  | cons y ys ih =>
    unfold insRev
    split <;> simp [ih]

theorem sortLoop_eq (lt : Card → Card → Bool) (rest : List Card) (rp : List Card) :
    (List.range' rp.length rest.length).foldl (fun cs i => insertDown (lessBy lt) i cs)
        (rp.reverse ++ rest)
      = (rest.foldl (fun acc x => insRev lt x acc) rp).reverse := by
  induction rest generalizing rp with
  | nil => simp
  | cons x rest ih =>
    rw [List.length_cons, List.range'_succ, List.foldl_cons, insertDown_eq, List.foldl_cons]
    have := ih (insRev lt x rp)
    rw [length_insRev] at this
    exact this

/-- The library's insertion sort, as a fold of element-level insertions. -/
theorem insertionSort_eq (lt : Card → Card → Bool) (cards : List Card) :
    insertionSort (lessBy lt) cards
      = (cards.foldl (fun acc x => insRev lt x acc) []).reverse := by
  cases cards with
  | nil => rfl
  | cons c rest =>
    have := sortLoop_eq lt rest [c]
    simpa [insertionSort, insRev] using this

theorem perm_insRev (lt : Card → Card → Bool) (x : Card) (ys : List Card) :
    (insRev lt x ys).Perm (x :: ys) := by
  induction ys with
  | nil => exact List.Perm.refl _
  | cons y ys ih =>
    unfold insRev
    split
    · exact (List.Perm.cons y ih).trans (List.Perm.swap x y ys)
    · exact List.Perm.refl _

theorem perm_foldl_insRev (lt : Card → Card → Bool) (cards acc : List Card) :
    (cards.foldl (fun acc x => insRev lt x acc) acc).Perm (cards ++ acc) := by
  induction cards generalizing acc with
  | nil => exact List.Perm.refl _
  | cons c cards ih =>
    rw [List.foldl_cons]
    refine (ih _).trans ?_
    refine (List.Perm.append_left cards (perm_insRev lt c acc)).trans ?_
    simp

/-- Descending order: the order of a sorted prefix held in reverse. -/
theorem desc_insRev (lt : Card → Card → Bool) (hlt : StrictWeak lt) (x : Card)
    (ys : List Card) (h : ys.Pairwise (fun a b => lt a b = false)) :
    (insRev lt x ys).Pairwise (fun a b => lt a b = false) := by
  induction ys with
  | nil => simp [insRev]
  | cons y ys ih =>
    have hy := List.pairwise_cons.1 h
    unfold insRev
    split
    · rename_i hxy
      refine List.pairwise_cons.2 ⟨?_, ih hy.2⟩
      intro z hz
      have hz2 := (perm_insRev lt x ys).mem_iff.1 hz
      simp only [List.mem_cons] at hz2
      rcases hz2 with rfl | hz2
      · cases hyz : lt y z with
        | false => rfl
        | true =>
          have := hlt.2.1 z y z hxy hyz
          rw [hlt.1 z] at this
          exact absurd this (by decide)
      · exact hy.1 z hz2
    · rename_i hxy
      have hxy2 : lt x y = false := by
        cases hc : lt x y with
        | false => rfl
        | true => exact absurd hc hxy
      refine List.pairwise_cons.2 ⟨?_, h⟩
      intro z hz
      simp only [List.mem_cons] at hz
      rcases hz with rfl | hz
      · exact hxy2
      · exact hlt.2.2 x y z hxy2 (hy.1 z hz)

theorem desc_foldl_insRev (lt : Card → Card → Bool) (hlt : StrictWeak lt)
    (cards acc : List Card) (h : acc.Pairwise (fun a b => lt a b = false)) :
    (cards.foldl (fun acc x => insRev lt x acc) acc).Pairwise
      (fun a b => lt a b = false) := by
  induction cards generalizing acc with
  | nil => exact h
  | cons c cards ih => exact ih _ (desc_insRev lt hlt c acc h)

/-- The insertion sort meets the promise of `sort.Slice` at every length. -/
theorem insertionSort_sortedPerm (lt : Card → Card → Bool) (hlt : StrictWeak lt)
    (cards : List Card) : SortedPerm lt cards (insertionSort (lessBy lt) cards) := by
  constructor
  · rw [insertionSort_eq]
    refine (List.reverse_perm _).trans ?_
    simpa using perm_foldl_insRev lt cards []
  · rw [insertionSort_eq, List.pairwise_reverse]
    exact desc_foldl_insRev lt hlt cards [] List.Pairwise.nil

/-- The contract assumed of the library's quicksort can be met: the insertion sort,
run at every length, is one function that meets it.  It is not what the library
runs on more than `maxInsertion` cards, and may order tied cards differently. -/
theorem insertionSort_contract : PdqContract insertionSort :=
  fun lt hlt cards _ => insertionSort_sortedPerm lt hlt cards

/-- `sort.Slice` keeps its promise at every length, by insertion up to
`maxInsertion` cards and by the contract of the quicksort above. -/
theorem sortSlice_sortedPerm (pdq : (List Card → Nat → Nat → Bool) → List Card → List Card)
    (hpdq : PdqContract pdq) (lt : Card → Card → Bool) (hlt : StrictWeak lt)
    (cards : List Card) : SortedPerm lt cards (sortSlice pdq (lessBy lt) cards) := by
  unfold sortSlice
  split
  · exact insertionSort_sortedPerm lt hlt cards
  · rename_i h
    exact hpdq lt hlt cards (not_le.1 h)

/-- The comparator of `DefaultSort` is of the form the library expects. -/
theorem less_eq_lessBy : Less = lessBy ltAbs := rfl

/-- Comparing absolute ranks is a strict weak ordering. -/
theorem strictWeak_ltAbs : StrictWeak ltAbs := by
  refine ⟨fun a => ?_, fun a b c h1 h2 => ?_, fun a b c h1 h2 => ?_⟩
  · simp [ltAbs]
  · simp only [ltAbs, decide_eq_true_eq] at h1 h2 ⊢
    omega
  · simp only [ltAbs, decide_eq_false_iff_not, not_lt] at h1 h2 ⊢
    omega

/-! ### Independence of the sorting algorithm on the standard deck -/

theorem eq_of_map_eq_of_injOn {f : Card → Int} :
    ∀ (l l' : List Card), l.map f = l'.map f →
      (∀ a ∈ l, ∀ b ∈ l', f a = f b → a = b) → l = l'
  | [], [], _, _ => rfl
  | [], _ :: _, h, _ => by simp at h
  | _ :: _, [], h, _ => by simp at h
  | a :: l, b :: l', h, hinj => by
    simp only [List.map_cons, List.cons.injEq] at h
    have hab : a = b := hinj a (List.mem_cons_self _ _) b (List.mem_cons_self _ _) h.1
    have ht : l = l' := eq_of_map_eq_of_injOn l l' h.2 (fun x hx y hy hxy =>
      hinj x (List.mem_cons_of_mem _ hx) y (List.mem_cons_of_mem _ hy) hxy)
    rw [hab, ht]

set_option maxRecDepth 20000 in
/-- Any rearrangement of the standard deck whose absolute ranks are non-decreasing
is the canonical sequence: on `New()` every correct sort returns the same slice. -/
theorem standard_sorted_unique (out : List Card) (hp : out.Perm (New []))
    (hs : out.Pairwise (fun a b => absRank a ≤ absRank b)) : out = New [] := by
  have hm : out.map absRank = (New []).map absRank := by
    have h1 : List.Sorted (fun x y : Int => x ≤ y) (out.map absRank) :=
      (List.pairwise_map).2 hs
    have h2 : List.Sorted (fun x y : Int => x ≤ y) ((New []).map absRank) :=
      (List.pairwise_map).2 (by decide)
    exact List.eq_of_perm_of_sorted (hp.map absRank) h1 h2
  apply eq_of_map_eq_of_injOn out (New []) hm
  intro a ha b hb hab
  have ha2 : a ∈ New [] := hp.mem_iff.1 ha
  have key : ∀ x ∈ New [], ∀ y ∈ New [], absRank x = absRank y → x = y := by decide
  exact key a ha2 b hb hab

/-! ### DefaultSort -/

/-- On a deck of at most `maxInsertion` cards `DefaultSort` is the library's
insertion sort, whatever the quicksort does on longer decks. -/
theorem defaultSort_short (pdq : (List Card → Nat → Nat → Bool) → List Card → List Card)
    (cards : List Card) (h : cards.length ≤ maxInsertion) :
    DefaultSort pdq cards = insertionSort Less cards := by
  unfold DefaultSort sortSlice
  rw [if_pos h]

theorem defaultSort_meets_promise
    (pdq : (List Card → Nat → Nat → Bool) → List Card → List Card) (cards : List Card)
    (h : cards.length ≤ maxInsertion ∨ PdqContract pdq) :
    (DefaultSort pdq cards).Perm cards ∧
      (DefaultSort pdq cards).Pairwise (fun a b => absRank a ≤ absRank b) := by
  have hs : SortedPerm ltAbs cards (DefaultSort pdq cards) := by
    rcases h with h | h
    · rw [defaultSort_short pdq cards h, less_eq_lessBy]
      exact insertionSort_sortedPerm ltAbs strictWeak_ltAbs cards
    · have := sortSlice_sortedPerm pdq h ltAbs strictWeak_ltAbs cards
      rw [← less_eq_lessBy] at this
      exact this
  refine ⟨hs.1, hs.2.imp ?_⟩
  intro a b hab
  simpa [ltAbs] using hab

/-- C9: for every deck, `DefaultSort(cards)` is a permutation of `cards` (same
length, same multiset) whose absolute ranks `suit_index * 13 + rank_value` are in
non-decreasing order from first to last.  For a deck of at most twelve cards this
is proved of the library's insertion sort itself; for a longer deck it rests on the
documented contract of `sort.Slice`. -/
theorem defaultSort_sorted_perm
    (pdq : (List Card → Nat → Nat → Bool) → List Card → List Card) (cards : List Card)
    (h : cards.length ≤ maxInsertion ∨ PdqContract pdq) :
    (DefaultSort pdq cards).Perm cards ∧ (DefaultSort pdq cards).length = cards.length ∧
      (∀ c : Card, (DefaultSort pdq cards).count c = cards.count c) ∧
      (DefaultSort pdq cards).Pairwise (fun a b => absRank a ≤ absRank b) ∧
      ∀ c : Card, absRank c = (c.Suit : Int) * 13 + (c.Rank : Int) := by
  have hs := defaultSort_meets_promise pdq cards h
  exact ⟨hs.1, hs.1.length_eq, fun c => hs.1.count_eq c, hs.2, fun c => rfl⟩

/-- C9 twice: on three cards, sorted by insertion whatever the quicksort is (here
one that leaves the slice alone), and on the thirteen Spades in descending order, a
deck longer than `maxInsertion`, with the insertion sort standing for the
quicksort. -/
theorem defaultSort_sorted_perm_witness :
    (DefaultSort (fun _ cs => cs) [⟨Joker, 0⟩, ⟨Heart, King⟩, ⟨Spade, Two⟩]).Pairwise
        (fun a b => absRank a ≤ absRank b) ∧
      PdqContract insertionSort ∧
      (DefaultSort insertionSort spadesDown).Perm spadesDown ∧
      (DefaultSort insertionSort spadesDown).Pairwise
        (fun a b => absRank a ≤ absRank b) :=
  ⟨(defaultSort_sorted_perm (fun _ cs => cs) [⟨Joker, 0⟩, ⟨Heart, King⟩, ⟨Spade, Two⟩]
      (Or.inl (by decide))).2.2.2.1,
    insertionSort_contract,
    (defaultSort_sorted_perm insertionSort spadesDown (Or.inr insertionSort_contract)).1,
    (defaultSort_sorted_perm insertionSort spadesDown
      (Or.inr insertionSort_contract)).2.2.2.1⟩

set_option maxRecDepth 20000 in
/-- C10: `New(DefaultSort)` equals the canonical sequence `New()`, which is in
strictly ascending suit-major, rank-minor order; its first card is the Ace of
Spades and its last card is the King of Hearts.  The 52 cards go through the
library's quicksort, of which the contract of `sort.Slice` is used. -/
theorem new_defaultSort (pdq : (List Card → Nat → Nat → Bool) → List Card → List Card)
    (hpdq : PdqContract pdq) :
    New [DefaultSort pdq] = New [] ∧
      (New [DefaultSort pdq]).Pairwise (fun a b =>
        a.Suit < b.Suit ∨ (a.Suit = b.Suit ∧ a.Rank < b.Rank)) ∧
      (New [DefaultSort pdq]).head? = some ⟨Spade, Ace⟩ ∧
      (New [DefaultSort pdq]).getLast? = some ⟨Heart, King⟩ := by
  have h0 : New [DefaultSort pdq] = DefaultSort pdq (New []) := rfl
  have hsp := defaultSort_meets_promise pdq (New []) (Or.inr hpdq)
  have h : New [DefaultSort pdq] = New [] := by
    rw [h0]
    exact standard_sorted_unique _ hsp.1 hsp.2
  rw [h]
  exact ⟨rfl, by decide, by decide, by decide⟩

/-- C10 with the insertion sort standing for the quicksort. -/
theorem new_defaultSort_witness :
    PdqContract insertionSort ∧ New [DefaultSort insertionSort] = New [] :=
  ⟨insertionSort_contract, (new_defaultSort insertionSort insertionSort_contract).1⟩


/-! ### Layout of the canonical sequence -/

/-- C12: `New()` is suit-major and rank-minor: for every suit index `s` in 0..3
(Spade, Diamond, Club, Heart in that order) and every rank `r` in 1..13, the card
at position `13*s + (r-1)` of `New()` has that suit and that rank. -/
theorem new_layout (s : Nat) (r : Rank) (hs : s < 4) (h1 : 1 ≤ r) (h2 : r ≤ 13) :
    suits = [Spade, Diamond, Club, Heart] ∧
      ∃ su, suits[s]? = some su ∧ (New [])[13 * s + (r - 1)]? = some ⟨su, r⟩ := by
  refine ⟨rfl, ?_⟩
  interval_cases s <;> interval_cases r <;> exact ⟨_, rfl, rfl⟩

/-- C12 at suit index 2 (Club) and rank 12 (Queen): position 37. -/
theorem new_layout_witness :
    ∃ su, suits[2]? = some su ∧ (New [])[13 * 2 + (12 - 1)]? = some ⟨su, 12⟩ :=
  (new_layout 2 12 (by decide) (by decide) (by decide)).2

/-! ### Edge cases of Deck, Jokers and Filter -/

/-- C14: `Deck(1)` is the identity and `Deck(0)` yields the empty sequence. -/
theorem deck_one_zero (cards : List Card) : Deck 1 cards = cards ∧ Deck 0 cards = [] := by
  constructor
  · rw [deck_eq]
    simp
  · rfl

/-- C15: for every `n <= 0`, zero or negative, `Jokers(n)(cards)` equals `cards`. -/
theorem jokers_nonpos (n : Int) (hn : n ≤ 0) (cards : List Card) : Jokers n cards = cards := by
  have h : n.toNat = 0 := Int.toNat_eq_zero.2 hn
  simp [Jokers, h]

/-- C15 at `n = -3` on a one-card deck. -/
theorem jokers_nonpos_witness : Jokers (-3) [⟨Heart, Ace⟩] = [⟨Heart, Ace⟩] :=
  jokers_nonpos (-3) (by decide) [⟨Heart, Ace⟩]

set_option maxRecDepth 8000 in
/-- C16, evaluated on the standard deck with a predicate that is true of every
card: the result is not empty, it is 52 zero-valued cards. -/
theorem filter_all_not_empty :
    (∀ c ∈ New [], (fun _ : Card => true) c = true) ∧
      Filter (fun _ => true) (New []) = List.replicate 52 zeroCard ∧
      Filter (fun _ => true) (New []) ≠ [] := by
  decide

/-- C19: for every predicate and every deck, `Filter(f)(cards)` is `len(cards)`
zero-valued cards (Suit Spade, Rank 0) followed by the cards for which `f` is
false, in their original order; its length is `len(cards)` plus the number kept. -/
theorem filter_zero_prefix (f : Card → Bool) (cards : List Card) :
    Filter f cards
        = List.replicate cards.length (⟨Spade, 0⟩ : Card) ++ cards.filter (fun c => !f c) ∧
      (Filter f cards).length = cards.length + cards.countP (fun c => !f c) := by
  have h := filter_eq f cards
  refine ⟨h, ?_⟩
  rw [h, List.length_append, List.length_replicate, List.countP_eq_length_filter]

/-- C20: duplication composes multiplicatively: for `m, n >= 0`,
`Deck(m)(Deck(n)(cards))` equals `Deck(m*n)(cards)`. -/
theorem deck_compose (m n : Int) (hm : 0 ≤ m) (hn : 0 ≤ n) (cards : List Card) :
    Deck m (Deck n cards) = Deck (m * n) cards := by
  have hmn : (m * n).toNat = m.toNat * n.toNat := by
    obtain ⟨a, rfl⟩ := Int.eq_ofNat_of_zero_le hm
    obtain ⟨b, rfl⟩ := Int.eq_ofNat_of_zero_le hn
    rw [← Int.ofNat_mul]
    rfl
  simp only [deck_eq, hmn]
  induction m.toNat with
  | zero => simp
  | succ k ih =>
    rw [List.replicate_succ, List.flatten_cons, ih, Nat.succ_mul, Nat.add_comm,
      List.replicate_add, List.flatten_append]

/-- C20 at `m = 2`, `n = 3` on a one-card deck. -/
theorem deck_compose_witness :
    Deck 2 (Deck 3 [⟨Heart, Ace⟩]) = Deck (2 * 3) [⟨Heart, Ace⟩] :=
  deck_compose 2 3 (by decide) (by decide) [⟨Heart, Ace⟩]


/-! ### The sort key -/

theorem key_lex (sa ra sb rb : Nat) (ha1 : 1 ≤ ra) (ha2 : ra ≤ 13) (hb1 : 1 ≤ rb)
    (hb2 : rb ≤ 13) :
    ((sa : Int) * 13 + (ra : Int) < (sb : Int) * 13 + (rb : Int)
        ↔ sa < sb ∨ (sa = sb ∧ ra < rb)) ∧
      ((sa : Int) * 13 + (ra : Int) = (sb : Int) * 13 + (rb : Int) → sa = sb ∧ ra = rb) ∧
      ((sa : Int) * 13 + (ra : Int) < (sb : Int) * 13 + (rb : Int) ∨ (sa = sb ∧ ra = rb) ∨
        (sb : Int) * 13 + (rb : Int) < (sa : Int) * 13 + (ra : Int)) := by
  refine ⟨⟨fun h => ?_, fun h => ?_⟩, fun h => ?_, ?_⟩ <;> omega

/-- C18: on cards whose rank is in Ace..King, the absolute rank orders suit-major
then rank-minor: `absRank a < absRank b` exactly when `a.Suit < b.Suit`, or the
suits agree and `a.Rank < b.Rank`; so `absRank` is injective on such cards and any
two of them are comparable. -/
theorem absRank_lex (a b : Card) (ha1 : Ace ≤ a.Rank) (ha2 : a.Rank ≤ King)
    (hb1 : Ace ≤ b.Rank) (hb2 : b.Rank ≤ King) :
    (absRank a < absRank b ↔ a.Suit < b.Suit ∨ (a.Suit = b.Suit ∧ a.Rank < b.Rank)) ∧
      (absRank a = absRank b → a = b) ∧
      (absRank a < absRank b ∨ a = b ∨ absRank b < absRank a) := by
  obtain ⟨sa, ra⟩ := a
  obtain ⟨sb, rb⟩ := b
  simp only [Card.mk.injEq]
  exact key_lex sa ra sb rb ha1 ha2 hb1 hb2

/-- C18 at the King of Spades and the Ace of Diamonds. -/
theorem absRank_lex_witness :
    (absRank ⟨Spade, King⟩ < absRank ⟨Diamond, Ace⟩ ↔
      Spade < Diamond ∨ (Spade = Diamond ∧ King < Ace)) :=
  (absRank_lex ⟨Spade, King⟩ ⟨Diamond, Ace⟩ (by decide) (by decide) (by decide)
    (by decide)).1

/-- C17, evaluated at `n = 1`: in `New(Jokers(1))` the King of Hearts and the Joker
tagged 0 are different cards with the same absolute rank 52, and `DefaultSort`
leaves a Joker in front of a Heart when it meets them in that order (two cards are
sorted by insertion, so this does not depend on the library's quicksort). -/
theorem absRank_tie_king_joker :
    (⟨Heart, King⟩ : Card) ∈ New [Jokers 1] ∧ (⟨Joker, 0⟩ : Card) ∈ New [Jokers 1] ∧
      absRank ⟨Heart, King⟩ = 52 ∧ absRank ⟨Joker, 0⟩ = 52 ∧
      (⟨Heart, King⟩ : Card) ≠ ⟨Joker, 0⟩ ∧
      ∀ pdq, DefaultSort pdq [⟨Joker, 0⟩, ⟨Heart, King⟩] = [⟨Joker, 0⟩, ⟨Heart, King⟩] := by
  refine ⟨by decide, by decide, by decide, by decide, by decide, fun pdq => ?_⟩
  rw [defaultSort_short pdq _ (by decide)]
  decide


/-! ### Shuffle -/

theorem foldl_set_enumFrom (g : Nat → Card) :
    ∀ (l : List Nat) (k : Nat) (ret : List Card), k + l.length ≤ ret.length →
      (l.enumFrom k).foldl (fun ret ij => ret.set ij.1 (g ij.2)) ret
        = ret.take k ++ l.map g ++ ret.drop (k + l.length)
  | [], k, ret, _ => by simp
  | j :: l, k, ret, h => by
    have hk : k < ret.length := by
      simp only [List.length_cons] at h
      omega
    have hlen : k + 1 + l.length ≤ (ret.set k (g j)).length := by
      simp only [List.length_cons] at h
      simp only [List.length_set]
      omega
    rw [List.enumFrom_cons, List.foldl_cons, foldl_set_enumFrom g l (k + 1) _ hlen]
    have ht : (ret.set k (g j)).take (k + 1) = ret.take k ++ [g j] := by
      rw [List.set_eq_take_cons_drop (g j) hk]
      have e : ret.take k ++ g j :: ret.drop (k + 1)
          = (ret.take k ++ [g j]) ++ ret.drop (k + 1) := by simp
      rw [e]
      apply List.take_left'
      simp only [List.length_append, List.length_take, List.length_singleton]
      omega
    have hd : (ret.set k (g j)).drop (k + 1 + l.length) = ret.drop (k + (j :: l).length) := by
      rw [List.drop_set_of_lt (g j) ret (by omega)]
      simp only [List.length_cons]
      congr 1
      omega
    rw [ht, hd]
    simp

theorem map_getD_range (cards : List Card) :
    (List.range cards.length).map (fun j => cards.getD j zeroCard) = cards := by
  apply List.ext_getElem
  · simp
  · intro n h1 h2
    simp [List.getD_eq_getElem?_getD, List.getElem?_eq_getElem h2]

/-- C11: with the output of the random source as a parameter, for every deck and
every permutation `perm` of the indices `0..len(cards)-1`, `Shuffle` returns the
sequence whose `i`-th entry is `cards[perm[i]]`; the output has the length of the
input and the same multiset of cards. -/
theorem shuffle_perm (randPerm : Nat → List Nat) (cards : List Card)
    (h : (randPerm cards.length).Perm (List.range cards.length)) :
    Shuffle randPerm cards
        = (randPerm cards.length).map (fun j => cards.getD j zeroCard) ∧
      (∀ i j : Nat, (randPerm cards.length)[i]? = some j →
        (Shuffle randPerm cards)[i]? = cards[j]?) ∧
      (Shuffle randPerm cards).length = cards.length ∧
      (Shuffle randPerm cards).Perm cards := by
  have hl : (randPerm cards.length).length = cards.length := by
    rw [h.length_eq, List.length_range]
  have e : Shuffle randPerm cards
      = (randPerm cards.length).map (fun j => cards.getD j zeroCard) := by
    unfold Shuffle
    rw [List.enum, foldl_set_enumFrom (fun j => cards.getD j zeroCard) _ 0 _
      (by simp [hl])]
    simp [hl]
  have hp : (Shuffle randPerm cards).Perm cards := by
    rw [e]
    have := h.map (fun j => cards.getD j zeroCard)
    rw [map_getD_range] at this
    exact this
  refine ⟨e, ?_, hp.length_eq, hp⟩
  intro i j hij
  have hj : j < cards.length := by
    have hm : j ∈ randPerm cards.length := List.getElem?_mem hij
    exact List.mem_range.1 (h.mem_iff.1 hm)
  rw [e, List.getElem?_map, hij, List.getElem?_eq_getElem hj]
  simp [List.getD_eq_getElem?_getD, List.getElem?_eq_getElem hj]

/-- C11 on a three-card deck with the permutation 2, 0, 1. -/
theorem shuffle_perm_witness :
    Shuffle (fun _ => [2, 0, 1]) [⟨Heart, Ace⟩, ⟨Club, Ten⟩, ⟨Spade, Two⟩]
        = [⟨Spade, Two⟩, ⟨Heart, Ace⟩, ⟨Club, Ten⟩] ∧
      (Shuffle (fun _ => [2, 0, 1]) [⟨Heart, Ace⟩, ⟨Club, Ten⟩, ⟨Spade, Two⟩]).Perm
        [⟨Heart, Ace⟩, ⟨Club, Ten⟩, ⟨Spade, Two⟩] :=
  ⟨(shuffle_perm (fun _ => [2, 0, 1]) [⟨Heart, Ace⟩, ⟨Club, Ten⟩, ⟨Spade, Two⟩]
      (by decide)).1,
    (shuffle_perm (fun _ => [2, 0, 1]) [⟨Heart, Ace⟩, ⟨Club, Ten⟩, ⟨Spade, Two⟩]
      (by decide)).2.2.2⟩


/-! ### Text form -/

/-- C13: for every card whose suit is Spade, Diamond, Club or Heart and whose rank
is in Ace..King, `Card.String()` is the rank name, then " of ", then the suit name,
then "s" (as in "Ace of Hearts"); for every card whose suit is Joker it is exactly
"Joker", whatever the rank. -/
theorem card_string (c : Card) :
    (c.Suit ∈ suits → Ace ≤ c.Rank → c.Rank ≤ King →
      ∃ rn sn, rankNames[c.Rank - 1]? = some rn ∧ suitNames[c.Suit]? = some sn ∧
        Card.String c = rn ++ " of " ++ sn ++ "s") ∧
      (c.Suit = Joker → Card.String c = "Joker") ∧
      Card.String ⟨Heart, Ace⟩ = "Ace of Hearts" := by
  obtain ⟨s, r⟩ := c
  refine ⟨?_, ?_, by decide⟩
  · intro hs h1 h2
    simp only [Ace, King] at h1 h2
    simp only [suits, Spade, Diamond, Club, Heart, List.mem_cons, List.mem_singleton,
      List.not_mem_nil, or_false] at hs
    interval_cases r <;> rcases hs with rfl | rfl | rfl | rfl <;>
      exact ⟨_, _, rfl, rfl, by decide⟩
  · intro hj
    simp only at hj
    subst hj
    rfl

/-- C13 at the Four of Diamonds and at a Joker tagged 7. -/
theorem card_string_witness :
    (∃ rn sn, rankNames[Four - 1]? = some rn ∧ suitNames[Diamond]? = some sn ∧
        Card.String ⟨Diamond, Four⟩ = rn ++ " of " ++ sn ++ "s") ∧
      Card.String ⟨Diamond, Four⟩ = "Four of Diamonds" ∧ Card.String ⟨Joker, 7⟩ = "Joker" :=
  ⟨(card_string ⟨Diamond, Four⟩).1 (by decide) (by decide) (by decide), by decide,
    (card_string ⟨Joker, 7⟩).2.1 rfl⟩

end GoDeck
